import Mathlib

/-!  Verification development for the baseband payload codec, CRC engine,
BCD codec and frame-rate scanner, shallowly embedded from
`baseband/vdif/payload.py` and `baseband/vlbi_base/utils.py`.

Machine integers are modelled as `Nat` (with explicit masks where overflow
matters), numpy arrays as `List`, and raised exceptions as `Option`/`Except`.
Components of the repository that the two source files import but that are
not part of the sources (the `vlbi_base.encoding` quantizers and level
tables, `VLBIPayloadBase`, `Mark5BPayload`) are modelled from the spec and
marked as such in their doc comments. -/

/-! ## BCD codec (`bcd_decode`, `bcd_encode` in `vlbi_base/utils.py`) -/

/-- Shallow embedding of `bcd_decode` for a single unsigned value: the
hexadecimal digit at position `k` contributes `d * 10^k`; `none` models the
`ValueError` (invalid BCD) raised when a nibble exceeds 9. -/
def bcd_decode (v : Nat) : Option Nat :=
  if h : v = 0 then some 0
  else if 9 < v % 16 then none
  else (bcd_decode (v / 16)).map (fun r => v % 16 + 10 * r)
termination_by v
decreasing_by exact Nat.div_lt_self (Nat.pos_of_ne_zero h) (by decide)

/-- Shallow embedding of `bcd_encode` for a single unsigned value: the
decimal digit at position `k` contributes `d * 16^k`. -/
def bcd_encode (v : Nat) : Nat :=
  if h : v = 0 then 0
  else v % 10 + 16 * bcd_encode (v / 10)
termination_by v
decreasing_by exact Nat.div_lt_self (Nat.pos_of_ne_zero h) (by decide)

/-- Decidable test for the invalid-BCD condition: some 4-bit nibble of `v`
exceeds 9. -/
def hasBadNibble (v : Nat) : Bool :=
  if h : v = 0 then false
  else decide (9 < v % 16) || hasBadNibble (v / 16)
termination_by v
decreasing_by exact Nat.div_lt_self (Nat.pos_of_ne_zero h) (by decide)

/-- Shallow embedding of the array branch of `bcd_decode`: `orig` is the
original array (used for the error report `value[digit > 9][0]`), `bcd` the
running quotients, `res` the accumulated results and `factor` the current
power of ten.  `Except.error e` models the `ValueError` naming the offending
element `e`. -/
def bcd_decode_array_loop (orig bcd res : List Nat) (factor : Nat) :
    Except Nat (List Nat) :=
  if h : bcd.all (fun x => x == 0) then Except.ok res
  else
    let digits := bcd.map (fun x => x % 16)
    match (orig.zip digits).find? (fun p => decide (9 < p.2)) with
    | some p => Except.error p.1
    | none =>
        bcd_decode_array_loop orig (bcd.map (fun x => x / 16))
          (List.zipWith (fun r d => r + d * factor) res digits) (factor * 10)
termination_by bcd.sum
decreasing_by
  have hex : ∃ x ∈ bcd, x ≠ 0 := by
    by_contra hall
    push_neg at hall
    exact h (by simpa [List.all_eq_true] using hall)
  calc (bcd.map (fun x => x / 16)).sum
      < (bcd.map id).sum := by
        refine List.sum_lt_sum _ _ (fun x _ => Nat.div_le_self x 16) ?_
        obtain ⟨x, hx, hx0⟩ := hex
        exact ⟨x, hx, Nat.div_lt_self (Nat.pos_of_ne_zero hx0) (by decide)⟩
    _ = bcd.sum := by simp

/-- Shallow embedding of the array branch of `bcd_decode`, entered with the
original values, a zero result array and factor 1. -/
def bcd_decode_array (values : List Nat) : Except Nat (List Nat) :=
  bcd_decode_array_loop values values (List.replicate values.length 0) 1

/-! ## Quantization tables and the VDIF sample codec
(`init_luts`, `decode_2bit`, `encode_2bit`, ... in `vdif/payload.py`) -/

/-- Modelled from the spec: the shared `decoder_levels[1]` table of
`vlbi_base.encoding` (not under src/): offset-binary levels for 1-bit
samples, all-zero pattern most negative, symmetric about zero. -/
def decoder_levels1 (c : Nat) : Int := (([-1, 1] : List Int)).getD c 0

/-- Modelled from the spec: the shared `decoder_levels[2]` table of
`vlbi_base.encoding` (not under src/): offset-binary levels for 2-bit
samples, codes 0,1,2,3 mapping to levels from most negative to most
positive, symmetric about zero. -/
def decoder_levels2 (c : Nat) : Int := (([-3, -1, 1, 3] : List Int)).getD c 0

/-- Modelled from the spec: the shared `decoder_levels[4]` table of
`vlbi_base.encoding` (not under src/): offset-binary levels for 4-bit
samples, monotone from the all-zero (most negative) to the all-one (most
positive) pattern. -/
def decoder_levels4 (c : Nat) : Int :=
  ((List.range 16).map (fun k => (k : Int) - 8)).getD c 0

/-- Shallow embedding of the 1-bit table built by `init_luts`:
`lut1bit[b][i] = decoder_levels[1][(b >> i) & 1]`. -/
def lut1bit : List (List Int) :=
  (List.range 256).map (fun b =>
    (List.range 8).map (fun i => decoder_levels1 ((b >>> i) &&& 1)))

/-- Shallow embedding of the 2-bit table built by `init_luts`:
`lut2bit[b][i] = decoder_levels[2][(b >> 2*i) & 3]`. -/
def lut2bit : List (List Int) :=
  (List.range 256).map (fun b =>
    (List.range 4).map (fun i => decoder_levels2 ((b >>> (2 * i)) &&& 3)))

/-- Shallow embedding of the 4-bit table built by `init_luts`:
`lut4bit[b][i] = decoder_levels[4][(b >> 4*i) & 0xf]`. -/
def lut4bit : List (List Int) :=
  (List.range 256).map (fun b =>
    (List.range 2).map (fun i => decoder_levels4 ((b >>> (4 * i)) &&& 0xf)))

/-- Shallow embedding of `decode_2bit`: the words viewed as bytes, each byte
looked up in `lut2bit` and the level quadruples concatenated. -/
def decode_2bit (bytes : List Nat) : List Int :=
  bytes.flatMap (fun b => lut2bit.getD b [])

/-- Shallow embedding of `decode_4bit`: each byte looked up in `lut4bit`. -/
def decode_4bit (bytes : List Nat) : List Int :=
  bytes.flatMap (fun b => lut4bit.getD b [])

/-- Modelled from the spec: the external `decode_8bit` of
`vlbi_base.encoding` (not under src/): each byte interpreted directly as a
signed level. -/
def decode_8bit (bytes : List Nat) : List Int :=
  bytes.map (fun b => if b < 128 then (b : Int) else (b : Int) - 256)

/-- Modelled from the spec: the external quantizer `encode_2bit_base` of
`vlbi_base.encoding` (not under src/): round a real-valued sample to the
nearest of the levels -3,-1,1,3, clipping at the extremes, and return its
2-bit offset-binary code. -/
def encode_2bit_base (v : Int) : Nat :=
  if v ≤ -2 then 0 else if v ≤ 0 then 1 else if v ≤ 2 then 2 else 3

/-- Modelled from the spec: the external quantizer `encode_4bit_base` of
`vlbi_base.encoding` (not under src/): round to the nearest 4-bit
offset-binary level, clipping at the extremes. -/
def encode_4bit_base (v : Int) : Nat :=
  if v ≤ -8 then 0 else if 7 ≤ v then 15 else (v + 8).toNat

/-- Modelled from the spec: the external `encode_8bit` quantizer byte of
`vlbi_base.encoding` (not under src/). -/
def encode_8bit_base (v : Int) : Nat :=
  if v ≤ -128 then 128
  else if v < 0 then (v + 256).toNat
  else if v ≤ 127 then v.toNat else 127

/-- Shallow embedding of the packing loop of `encode_2bit`: each group of 4
consecutive codes is shifted by `shift2bit = [0, 2, 4, 6]` and OR-reduced
into one byte (incomplete trailing groups do not occur because the caller
reshapes to `(-1, 4)`). -/
def pack2bit : List Int → List Nat
  | v0 :: v1 :: v2 :: v3 :: rest =>
      ((((encode_2bit_base v0 <<< 0) ||| (encode_2bit_base v1 <<< 2)) |||
        (encode_2bit_base v2 <<< 4)) ||| (encode_2bit_base v3 <<< 6)) ::
        pack2bit rest
  | _ => []

/-- Shallow embedding of `encode_2bit`: `values.reshape(-1, 4)` requires the
flattened length to be a multiple of 4 (`none` models the reshape error),
then each group is quantized, shifted and OR-combined. -/
def encode_2bit (values : List Int) : Option (List Nat) :=
  if values.length % 4 = 0 then some (pack2bit values) else none

/-- Shallow embedding of the packing loop of `encode_4bit`: pairs of codes
shifted by `shift04 = [0, 4]` and OR-combined. -/
def pack4bit : List Int → List Nat
  | v0 :: v1 :: rest =>
      ((encode_4bit_base v0 <<< 0) ||| (encode_4bit_base v1 <<< 4)) ::
        pack4bit rest
  | _ => []

/-- Shallow embedding of `encode_4bit`. -/
def encode_4bit (values : List Int) : Option (List Nat) :=
  if values.length % 2 = 0 then some (pack4bit values) else none

/-- Modelled from the spec: the external `encode_8bit` of
`vlbi_base.encoding` (not under src/): one byte per sample, no reshape
constraint. -/
def encode_8bit (values : List Int) : Option (List Nat) :=
  some (values.map encode_8bit_base)

/-! ## The VDIF payload container (`VDIFPayload` in `vdif/payload.py`) -/

/-- Shallow embedding of the header fields that `VDIFPayload` reads
(`nchan`, `bps`, `complex_data`, `payloadsize`, `edv`). -/
structure VDIFHeaderM where
  nchan : Nat
  bps : Nat
  complex_data : Bool
  payloadsize : Nat
  edv : Nat

/-- Modelled from the spec: the payload container state stored by
`VLBIPayloadBase.__init__` (not under src/) plus the fields `VDIFPayload`
sets itself: the raw words, bits per sample, sample shape, complexity, the
channel count and whether the Mark5B encoder/decoder registries were
substituted (`header.edv == 0xab`). -/
structure PayloadM where
  words : List Nat
  bps : Nat
  sample_shape : List Nat
  complex_data : Bool
  nchan : Nat
  usesMark5B : Bool

/-- Shallow embedding of `VDIFPayload.__init__`: with a header, the layout
comes from the header and a complex Mark5B payload (`edv == 0xab`) raises;
without a header the keyword defaults are `nchan=1, bps=2,
complex_data=False`.  `Except.error` models the raised `ValueError`. -/
def VDIFPayload_init (words : List Nat) (header : Option VDIFHeaderM)
    (nchan : Nat := 1) (bps : Nat := 2) (complex_data : Bool := false) :
    Except String PayloadM :=
  match header with
  | some h =>
      if h.edv = 0xab && h.complex_data then
        Except.error "VDIF/Mark5B payload cannot be complex."
      else
        Except.ok ⟨words, h.bps, [h.nchan], h.complex_data, h.nchan,
          h.edv = 0xab⟩
  | none => Except.ok ⟨words, bps, [nchan], complex_data, nchan, false⟩

/-- Shallow embedding of the `VDIFPayload._decoders` registry: a mapping
from bits-per-sample to the decoder function, with keys 2, 4 and 8 (a
missing key models the `KeyError` / unsupported depth). -/
def VDIFPayload_decoders : List (Nat × (List Nat → List Int)) :=
  [(2, decode_2bit), (4, decode_4bit), (8, decode_8bit)]

/-- Registry lookup for `VDIFPayload._decoders[bps]`. -/
def VDIFPayload_getDecoder (bps : Nat) : Option (List Nat → List Int) :=
  VDIFPayload_decoders.lookup bps

/-- Shallow embedding of the `VDIFPayload._encoders` registry. -/
def VDIFPayload_encoders : List (Nat × (List Int → Option (List Nat))) :=
  [(2, encode_2bit), (4, encode_4bit), (8, encode_8bit)]

/-- Modelled from the spec: the alternate 2-bit encoder registered by the
Mark5B format module (not under src/); same bit-depth key, different bit
layout (modelled here with most-significant-group-first packing). -/
def mark5b_pack2bit : List Int → List Nat
  | v0 :: v1 :: v2 :: v3 :: rest =>
      ((((encode_2bit_base v0 <<< 6) ||| (encode_2bit_base v1 <<< 4)) |||
        (encode_2bit_base v2 <<< 2)) ||| (encode_2bit_base v3 <<< 0)) ::
        mark5b_pack2bit rest
  | _ => []

/-- Modelled from the spec: the Mark5B 2-bit encoder entry. -/
def mark5b_encode_2bit (values : List Int) : Option (List Nat) :=
  if values.length % 4 = 0 then some (mark5b_pack2bit values) else none

/-- Modelled from the spec: the Mark5B 1-bit encoder entry (sign bits packed
eight to a byte). -/
def mark5b_pack1bit : List Int → List Nat
  | v0 :: v1 :: v2 :: v3 :: v4 :: v5 :: v6 :: v7 :: rest =>
      (((((((((if 0 < v0 then 1 else 0) <<< 7) |||
         ((if 0 < v1 then 1 else 0) <<< 6)) |||
         ((if 0 < v2 then 1 else 0) <<< 5)) |||
         ((if 0 < v3 then 1 else 0) <<< 4)) |||
         ((if 0 < v4 then 1 else 0) <<< 3)) |||
         ((if 0 < v5 then 1 else 0) <<< 2)) |||
         ((if 0 < v6 then 1 else 0) <<< 1)) |||
         ((if 0 < v7 then 1 else 0) <<< 0)) :: mark5b_pack1bit rest
  | _ => []

/-- Modelled from the spec: the Mark5B 1-bit encoder entry. -/
def mark5b_encode_1bit (values : List Int) : Option (List Nat) :=
  if values.length % 8 = 0 then some (mark5b_pack1bit values) else none

/-- Modelled from the spec: the `Mark5BPayload._encoders` registry of the
Mark5B format module (not under src/), registering alternate encoders under
the bit-depth keys 1 and 2. -/
def Mark5BPayload_encoders : List (Nat × (List Int → Option (List Nat))) :=
  [(1, mark5b_encode_1bit), (2, mark5b_encode_2bit)]

/-- Shallow embedding of a sample array passed to `fromdata`: `nchan` is the
trailing dimension of the shape, `kindComplex` records whether the dtype
kind is complex, and `flat` is the raveled real view (for complex data the
real/imaginary components already interleaved, as produced by
`data.view((data.real.dtype, (2,)))`). -/
structure DataArray where
  nsamp : Nat
  nchan : Nat
  kindComplex : Bool
  flat : List Int

/-- Shallow embedding of `.ravel().view(cls._dtype_word)`: the encoded bytes
grouped four at a time into little-endian 32-bit words; `none` models the
view error when the byte count is not a multiple of the word size. -/
def toWords : List Nat → Option (List Nat)
  | [] => some []
  | b0 :: b1 :: b2 :: b3 :: rest =>
      (toWords rest).map (fun ws =>
        (((b0 ||| (b1 <<< 8)) ||| (b2 <<< 16)) ||| (b3 <<< 24)) :: ws)
  | _ => none

/-- Shared tail of `VDIFPayload.fromdata`: select the encoder registry by
the `edv` tag, encode, view as words and construct the payload. -/
def VDIFPayload_encodeAndBuild (data : DataArray) (header : Option VDIFHeaderM)
    (nchan bps : Nat) (edv : Option Nat) (complex_data : Bool) :
    Except String PayloadM :=
  match (if edv = some 0xab then Mark5BPayload_encoders.lookup bps
         else VDIFPayload_encoders.lookup bps) with
  | none => Except.error "KeyError: no encoder for this bits per sample"
  | some enc =>
      match enc data.flat with
      | none => Except.error "cannot reshape data for encoding"
      | some bytes =>
          match toWords bytes with
          | none => Except.error "cannot view encoded bytes as words"
          | some words => VDIFPayload_init words header nchan bps complex_data

/-- Shallow embedding of `VDIFPayload.fromdata`: with a header, the channel
count and complexity are cross-checked and `bps`/`edv` overridden from the
header; without a header the keyword defaults are `bps=2, edv=None`. -/
def VDIFPayload_fromdata (data : DataArray) (header : Option VDIFHeaderM)
    (bps : Nat := 2) (edv : Option Nat := none) : Except String PayloadM :=
  let nchan := data.nchan
  let complex_data := data.kindComplex
  match header with
  | some h =>
      if h.nchan ≠ nchan then
        Except.error "Header is for a different number of channels"
      else if h.complex_data ≠ complex_data then
        Except.error "Header complexity does not match data"
      else
        VDIFPayload_encodeAndBuild data (some h) nchan h.bps (some h.edv)
          complex_data
  | none => VDIFPayload_encodeAndBuild data none nchan bps edv complex_data

/-! ## Frame-rate scanner (`get_frame_rate` in `vlbi_base/utils.py`) -/

/-- Shallow embedding of the header records read by `get_frame_rate`: the
frame number and the seconds counter (the payload skipping between headers
is abstracted into the header sequence itself). -/
structure FrameHeader where
  frame_nr : Nat
  seconds : Int

/-- Shallow embedding of the first loop of `get_frame_rate`: advance while
the frame number stays zero; `none` models running off the end of the
file. -/
def skip_zero_frames : FrameHeader → List FrameHeader →
    Option (FrameHeader × List FrameHeader)
  | h, [] => if h.frame_nr = 0 then none else some (h, [])
  | h, h2 :: t =>
      if h.frame_nr = 0 then skip_zero_frames h2 t else some (h, h2 :: t)

/-- Shallow embedding of the second loop of `get_frame_rate`: advance while
the frame number is positive, overwriting `max_frame` with each frame
number seen, until a header with frame number zero is read; returns that
header together with the last `max_frame`. -/
def scan_increasing : FrameHeader → List FrameHeader → Nat →
    Option (Nat × FrameHeader)
  | h, [], maxf => if 0 < h.frame_nr then none else some (maxf, h)
  | h, h2 :: t, maxf =>
      if 0 < h.frame_nr then scan_increasing h2 t h.frame_nr
      else some (maxf, h)

/-- Shallow embedding of `get_frame_rate`: the result is the inferred frame
rate `max_frame + 1` paired with the flag of the warning emitted when the
seconds value at roll-over is not `sec0 + 1`; `none` models the initial
assertion failure or reading past the end of the file. -/
def get_frame_rate (headers : List FrameHeader) : Option (Nat × Bool) :=
  match headers with
  | [] => none
  | h :: t =>
      if h.frame_nr ≠ 0 then none
      else
        let sec0 := h.seconds
        match skip_zero_frames h t with
        | none => none
        | some (h1, r) =>
            match scan_increasing h1 r 0 with
            | none => none
            | some (maxf, hend) =>
                some (maxf + 1, decide (hend.seconds ≠ sec0 + 1))

/-! ## CRC engine (`CRC` in `vlbi_base/utils.py`) -/

/-- Binary digits of `n`, most significant first, as produced by the format
string `'{:b}'.format(n)` for positive `n` (fuel-driven so that it reduces
definitionally; the fuel `n` itself always suffices). -/
def pol_bin_go : Nat → Nat → List Bool
  | 0, _ => []
  | f + 1, n =>
      if n = 0 then [] else pol_bin_go f (n / 2) ++ [decide (n % 2 = 1)]

/-- Shallow embedding of `CRC.pol_bin`: the binary-coefficient list of the
polynomial (`'{:b}'.format(polynomial)` gives `[false]` for 0). -/
def pol_bin (p : Nat) : List Bool :=
  if p = 0 then [false] else pol_bin_go p p

/-- Shallow embedding of `CRC.__len__`: the polynomial degree,
`pol_bin.size - 1`. -/
def CRC_len (p : Nat) : Nat := (pol_bin p).length - 1

/-- Shallow embedding of `(-pol_bin).astype(stream.dtype)` for an unsigned
`w`-bit word stream: coefficient 1 becomes the all-ones word, coefficient 0
the zero word (a boolean stream is the case `w = 1`). -/
def polMask (p w : Nat) : List Nat :=
  (pol_bin p).map (fun c => if c then 2 ^ w - 1 else 0)

/-- Shallow embedding of the slice update `stream[i:i+patch.len] ^= patch`:
positions `i ≤ k < i + patch.length` are XORed with the corresponding patch
element, all others kept. -/
def applyAt (s : List Nat) (i : Nat) (patch : List Nat) : List Nat :=
  (List.range s.length).map (fun k =>
    if i ≤ k ∧ k < i + patch.length then s.getD k 0 ^^^ patch.getD (k - i) 0
    else s.getD k 0)

/-- Shallow embedding of one iteration of the `CRC._crc` loop:
`stream[i:i+pol_bin.size] ^= (pol_bin & stream[i])`. -/
def crcStep (mask : List Nat) (s : List Nat) (i : Nat) : List Nat :=
  applyAt s i (mask.map (fun m => m &&& s.getD i 0))

/-- The `CRC._crc` loop, running `steps` iterations starting at index `i`. -/
def crcLoop (mask : List Nat) (s : List Nat) (i : Nat) : Nat → List Nat
  | 0 => s
  | steps + 1 => crcLoop mask (crcStep mask s i) (i + 1) steps

/-- Shallow embedding of `CRC._crc` over `w`-bit words: run the loop for
`len(stream) - degree` iterations and return `stream[-degree:]` (for degree
0 the Python slice `[-0:]` is the whole stream). -/
def CRC_crc (p w : Nat) (s : List Nat) : List Nat :=
  let d := CRC_len p
  let r := crcLoop (polMask p w) s 0 (s.length - d)
  if d = 0 then r else r.drop (r.length - d)

/-- Shallow embedding of `CRC.__call__` (compute): append `degree` zero
elements and run `_crc`. -/
def CRC_call (p w : Nat) (s : List Nat) : List Nat :=
  CRC_crc p w (s ++ List.replicate (CRC_len p) 0)

/-- Shallow embedding of `CRC.check`: run `_crc` on the full stream (whose
tail already holds a CRC) and report whether the remainder is entirely
zero. -/
def CRC_check (p w : Nat) (s : List Nat) : Bool :=
  (CRC_crc p w s).all (fun x => x == 0)

/-! ## Helper lemmas -/

theorem getD_range_map {α : Type} (f : Nat → α) (d : α) (n b : Nat)
    (h : b < n) : (((List.range n).map f).getD b d) = f b := by
  rw [List.getD_eq_getElem?_getD, List.getElem?_map, List.getElem?_range h]
  rfl

theorem getD_map_lt {α β : Type} [Inhabited α] (f : α → β) (l : List α)
    (j : Nat) (h : j < l.length) (d : β) (e : α) :
    (l.map f).getD j d = f (l.getD j e) := by
  rw [List.getD_eq_getElem?_getD, List.getElem?_map,
    List.getElem?_eq_getElem h, List.getD_eq_getElem l e h]
  rfl

theorem getD_mem {l : List Nat} {j : Nat} (h : j < l.length) :
    l.getD j 0 ∈ l := by
  rw [List.getD_eq_getElem l 0 h]
  exact List.getElem_mem h

theorem getD_drop (l : List Nat) (n j d : Nat) :
    (l.drop n).getD j d = l.getD (n + j) d := by
  simp [List.getD_eq_getElem?_getD, List.getElem?_drop]

/-! ## BCD lemmas -/

theorem bcd_encode_eq_zero : ∀ v : Nat, bcd_encode v = 0 → v = 0 := by
  intro v
  induction v using Nat.strong_induction_on with
  | _ v ih =>
    intro h
    by_contra hv
    rw [bcd_encode] at h
    simp only [hv, dite_false] at h
    have h1 : v % 10 = 0 ∧ 16 * bcd_encode (v / 10) = 0 := by omega
    have h2 : bcd_encode (v / 10) = 0 := by omega
    have h3 : v / 10 = 0 :=
      ih (v / 10) (Nat.div_lt_self (Nat.pos_of_ne_zero hv) (by decide)) h2
    omega

theorem bcd_decode_encode : ∀ v : Nat, bcd_decode (bcd_encode v) = some v := by
  intro v
  induction v using Nat.strong_induction_on with
  | _ v ih =>
    by_cases hv : v = 0
    · subst hv
      rw [bcd_encode, bcd_decode]
      simp
    · have henc : bcd_encode v = v % 10 + 16 * bcd_encode (v / 10) := by
        rw [bcd_encode]
        simp [hv]
      have hne : bcd_encode v ≠ 0 := fun h => hv (bcd_encode_eq_zero v h)
      have hm : v % 10 < 10 := Nat.mod_lt v (by decide)
      have hmod : bcd_encode v % 16 = v % 10 := by
        rw [henc]
        omega
      have hdiv : bcd_encode v / 16 = bcd_encode (v / 10) := by
        rw [henc]
        omega
      rw [bcd_decode, dif_neg hne, if_neg (by omega), hdiv,
        ih (v / 10) (Nat.div_lt_self (Nat.pos_of_ne_zero hv) (by decide))]
      rw [Option.map_some']
      congr 1
      rw [hmod]
      omega

theorem hasBadNibble_zero : hasBadNibble 0 = false := by
  rw [hasBadNibble]
  simp

theorem hasBadNibble_iff :
    ∀ v : Nat, hasBadNibble v = true ↔ ∃ k, 9 < v / 16 ^ k % 16 := by
  intro v
  induction v using Nat.strong_induction_on with
  | _ v ih =>
    by_cases hv : v = 0
    · subst hv
      rw [hasBadNibble]
      simp
    · rw [hasBadNibble]
      simp only [hv, dite_false, Bool.or_eq_true, decide_eq_true_eq]
      rw [ih (v / 16) (Nat.div_lt_self (Nat.pos_of_ne_zero hv) (by decide))]
      constructor
      · rintro (h | ⟨k, hk⟩)
        · exact ⟨0, by simpa using h⟩
        · refine ⟨k + 1, ?_⟩
          rwa [pow_succ, Nat.mul_comm, ← Nat.div_div_eq_div_mul]
      · rintro ⟨k, hk⟩
        match k with
        | 0 => exact Or.inl (by simpa using hk)
        | k + 1 =>
            refine Or.inr ⟨k, ?_⟩
            rwa [pow_succ, Nat.mul_comm, ← Nat.div_div_eq_div_mul] at hk

theorem bcd_decode_none_iff :
    ∀ v : Nat, bcd_decode v = none ↔ hasBadNibble v = true := by
  intro v
  induction v using Nat.strong_induction_on with
  | _ v ih =>
    by_cases hv : v = 0
    · subst hv
      rw [bcd_decode, hasBadNibble]
      simp
    · rw [bcd_decode, hasBadNibble]
      simp only [hv, dite_false]
      by_cases hbig : 9 < v % 16
      · simp [hbig]
      · simp only [hbig, if_false, decide_eq_true_eq, Option.map_eq_none',
          Bool.or_eq_true]
        rw [ih (v / 16) (Nat.div_lt_self (Nat.pos_of_ne_zero hv) (by decide))]
        simp [hbig]

theorem hasBadNibble_of_div16 {x : Nat}
    (h : hasBadNibble (x / 16) = true) : hasBadNibble x = true := by
  by_cases hx : x = 0
  · subst hx
    simpa using h
  · rw [hasBadNibble]
    simp [hx, h]

theorem sum_map_div16_lt {bcd : List Nat}
    (h : ¬ bcd.all (fun x => x == 0) = true) :
    (bcd.map (fun x => x / 16)).sum < bcd.sum := by
  have hex : ∃ x ∈ bcd, x ≠ 0 := by
    by_contra hall
    push_neg at hall
    exact h (by simpa [List.all_eq_true] using hall)
  calc (bcd.map (fun x => x / 16)).sum
      < (bcd.map id).sum := by
        refine List.sum_lt_sum _ _ (fun x _ => Nat.div_le_self x 16) ?_
        obtain ⟨x, hx, hx0⟩ := hex
        exact ⟨x, hx, Nat.div_lt_self (Nat.pos_of_ne_zero hx0) (by decide)⟩
    _ = bcd.sum := by simp

theorem bcd_array_loop_error_char :
    ∀ (n : Nat) (orig bcd res : List Nat) (factor e : Nat),
      bcd.sum = n → orig.length = bcd.length →
      (∀ j, j < bcd.length → hasBadNibble (bcd.getD j 0) = true →
        hasBadNibble (orig.getD j 0) = true) →
      bcd_decode_array_loop orig bcd res factor = Except.error e →
      e ∈ orig ∧ hasBadNibble e = true := by
  intro n
  induction n using Nat.strong_induction_on with
  | _ n ih =>
    intro orig bcd res factor e hsum hlen hinv hrun
    rw [bcd_decode_array_loop.eq_def] at hrun
    by_cases hall : bcd.all (fun x => x == 0) = true
    · simp [hall] at hrun
    · simp only [hall, dite_false] at hrun
      cases hfind : (orig.zip (bcd.map (fun x => x % 16))).find?
          (fun p => decide (9 < p.2)) with
      | some p =>
          rw [hfind] at hrun
          obtain ⟨j, hj, hp⟩ :=
            List.mem_iff_getElem.mp (List.mem_of_find?_eq_some hfind)
          have hj2 : j < orig.length ∧ j < bcd.length := by
            rw [List.length_zip, List.length_map] at hj
            omega
          have hpred := List.find?_some hfind
          have hzip : (orig.zip (bcd.map (fun x => x % 16)))[j] =
              (orig[j], bcd[j] % 16) := by
            rw [List.getElem_zip, List.getElem_map]
          rw [hzip] at hp
          have he : e = orig[j] := by
            cases hrun
            rw [← hp]
          have hbadj : hasBadNibble bcd[j] = true := by
            rw [← hp] at hpred
            simp only [decide_eq_true_eq] at hpred
            rw [hasBadNibble]
            have : bcd[j] ≠ 0 := by omega
            simp [this]
            omega
          refine ⟨he ▸ List.getElem_mem hj2.1, ?_⟩
          rw [he]
          have := hinv j hj2.2 (by rwa [List.getD_eq_getElem bcd 0 hj2.2])
          rwa [List.getD_eq_getElem orig 0 hj2.1] at this
      | none =>
          rw [hfind] at hrun
          refine ih _ (hsum ▸ sum_map_div16_lt hall) orig _ _ _ e rfl
            (by simpa using hlen) ?_ hrun
          intro j hjlen hbad
          rw [List.length_map] at hjlen
          rw [getD_map_lt _ _ _ hjlen _ 0] at hbad
          exact hinv j hjlen (hasBadNibble_of_div16 hbad)

theorem bcd_array_loop_bad_errors :
    ∀ (n : Nat) (orig bcd res : List Nat) (factor : Nat),
      bcd.sum = n → orig.length = bcd.length →
      (∃ j, j < bcd.length ∧ hasBadNibble (bcd.getD j 0) = true) →
      ∃ e, bcd_decode_array_loop orig bcd res factor = Except.error e := by
  intro n
  induction n using Nat.strong_induction_on with
  | _ n ih =>
    intro orig bcd res factor hsum hlen hex
    obtain ⟨j, hj, hbad⟩ := hex
    rw [bcd_decode_array_loop.eq_def]
    have hall : ¬ bcd.all (fun x => x == 0) = true := by
      intro hall
      have := List.all_eq_true.mp hall _ (getD_mem hj)
      simp only [beq_iff_eq] at this
      rw [this] at hbad
      exact absurd hbad (by simp [hasBadNibble_zero])
    simp only [hall, dite_false]
    cases hfind : (orig.zip (bcd.map (fun x => x % 16))).find?
        (fun p => decide (9 < p.2)) with
    | some p => exact ⟨p.1, rfl⟩
    | none =>
        refine ih _ (hsum ▸ sum_map_div16_lt hall) orig _ _ _ rfl
          (by simpa using hlen) ?_
        refine ⟨j, by simpa using hj, ?_⟩
        rw [getD_map_lt _ _ _ hj _ 0]
        have hdig : ¬ 9 < bcd.getD j 0 % 16 := by
          have hmem : (orig.getD j 0, bcd.getD j 0 % 16) ∈
              orig.zip (bcd.map (fun x => x % 16)) := by
            rw [List.mem_iff_getElem]
            have hjo : j < orig.length := by omega
            refine ⟨j, ?_, ?_⟩
            · rw [List.length_zip, List.length_map]
              omega
            · rw [List.getElem_zip, List.getElem_map,
                List.getD_eq_getElem orig 0 hjo, List.getD_eq_getElem bcd 0 hj]
          have := List.find?_eq_none.mp hfind _ hmem
          simpa using this
        rw [hasBadNibble] at hbad
        have hne : bcd.getD j 0 ≠ 0 := by
          intro h0
          rw [h0] at hbad
          simp at hbad
        simp only [hne, dite_false, Bool.or_eq_true, decide_eq_true_eq] at hbad
        rcases hbad with h | h
        · exact absurd h hdig
        · exact h

/-! ## Claim C6 -/

/-- Claim C6: for every integer `v` with `0 ≤ v < 10000`,
`bcd_decode (bcd_encode v) = v`, where `bcd_decode` interprets hex digit `d`
at position `k` as contributing `d * 10^k` and `bcd_encode` is its inverse
(decimal digit `d` at position `k` contributes `d * 16^k`). -/
theorem bcd_round_trip (v : Nat) (hv : v < 10000) :
    bcd_decode (bcd_encode v) = some v :=
  bcd_decode_encode v

theorem bcd_round_trip_witness :
    1234 < 10000 ∧ bcd_decode (bcd_encode 1234) = some 1234 :=
  ⟨by decide, bcd_round_trip 1234 (by decide)⟩

/-! ## Claim C7 -/

/-- Claim C7: `bcd_decode` fails (returns `none`, the `InvalidBCDError`)
exactly when some 4-bit nibble of the input exceeds 9; element-wise in the
array branch the reported error value is an offending element of the input
array, and an array succeeds exactly when every element has all nibbles in
0..9 (all-valid inputs never raise). -/
theorem bcd_invalid_detection :
    (∀ v : Nat, bcd_decode v = none ↔ ∃ k, 9 < v / 16 ^ k % 16)
    ∧ (∀ (xs : List Nat) (e : Nat), bcd_decode_array xs = Except.error e →
        e ∈ xs ∧ ∃ k, 9 < e / 16 ^ k % 16)
    ∧ (∀ xs : List Nat, (∃ r, bcd_decode_array xs = Except.ok r) ↔
        ∀ x ∈ xs, ¬ ∃ k, 9 < x / 16 ^ k % 16) := by
  have harrerr : ∀ (xs : List Nat) (e : Nat),
      bcd_decode_array xs = Except.error e →
      e ∈ xs ∧ hasBadNibble e = true := by
    intro xs e hrun
    exact bcd_array_loop_error_char xs.sum xs xs _ 1 e rfl rfl
      (fun j hj hb => hb) hrun
  refine ⟨?_, ?_, ?_⟩
  · intro v
    rw [bcd_decode_none_iff v, hasBadNibble_iff v]
  · intro xs e hrun
    obtain ⟨hmem, hbad⟩ := harrerr xs e hrun
    exact ⟨hmem, (hasBadNibble_iff e).mp hbad⟩
  · intro xs
    constructor
    · rintro ⟨r, hr⟩ x hx ⟨k, hk⟩
      obtain ⟨j, hj, rfl⟩ := List.mem_iff_getElem.mp hx
      obtain ⟨e, he⟩ := bcd_array_loop_bad_errors xs.sum xs xs
        (List.replicate xs.length 0) 1 rfl rfl
        ⟨j, hj, by
          rw [List.getD_eq_getElem xs 0 hj]
          exact (hasBadNibble_iff _).mpr ⟨k, hk⟩⟩
      rw [bcd_decode_array] at hr
      rw [he] at hr
      cases hr
    · intro hgood
      cases hres : bcd_decode_array xs with
      | ok r => exact ⟨r, rfl⟩
      | error e =>
          obtain ⟨hmem, hbad⟩ := harrerr xs e hres
          exact absurd ((hasBadNibble_iff e).mp hbad) (hgood e hmem)

theorem bcd_invalid_detection_witness :
    bcd_decode 26 = none ∧
    (26 ∈ [26] ∧ ∃ k, 9 < 26 / 16 ^ k % 16) ∧
    (∃ r, bcd_decode_array ([] : List Nat) = Except.ok r) :=
  ⟨(bcd_invalid_detection.1 26).mpr ⟨0, by decide⟩,
   bcd_invalid_detection.2.1 [26] 26 (by
     rw [bcd_decode_array, bcd_decode_array_loop.eq_def]
     simp [List.find?]),
   (bcd_invalid_detection.2.2 []).mpr (by simp)⟩

/-! ## Claim C5 -/

/-- Claim C5: each quantization table built by `init_luts` has exactly 256
entries, each an ordered sequence of `8/n` levels, and for every byte `b`
and position `i` the `i`-th level of entry `b` is the decoder-levels value
of the `i`-th `n`-bit group of `b`, least-significant group first. -/
theorem init_luts_spec :
    lut1bit.length = 256 ∧ lut2bit.length = 256 ∧ lut4bit.length = 256
    ∧ (∀ b, b < 256 → (lut1bit.getD b []).length = 8 ∧
        ∀ i, i < 8 → (lut1bit.getD b []).getD i 0 =
          decoder_levels1 ((b >>> (1 * i)) &&& (2 ^ 1 - 1)))
    ∧ (∀ b, b < 256 → (lut2bit.getD b []).length = 4 ∧
        ∀ i, i < 4 → (lut2bit.getD b []).getD i 0 =
          decoder_levels2 ((b >>> (2 * i)) &&& (2 ^ 2 - 1)))
    ∧ (∀ b, b < 256 → (lut4bit.getD b []).length = 2 ∧
        ∀ i, i < 2 → (lut4bit.getD b []).getD i 0 =
          decoder_levels4 ((b >>> (4 * i)) &&& (2 ^ 4 - 1))) := by
  refine ⟨by simp [lut1bit], by simp [lut2bit], by simp [lut4bit], ?_, ?_, ?_⟩
  · intro b hb
    rw [lut1bit, getD_range_map _ _ _ _ hb]
    refine ⟨by simp, ?_⟩
    intro i hi
    rw [getD_range_map _ _ _ _ hi]
    norm_num
  · intro b hb
    rw [lut2bit, getD_range_map _ _ _ _ hb]
    refine ⟨by simp, ?_⟩
    intro i hi
    rw [getD_range_map _ _ _ _ hi]
    norm_num
  · intro b hb
    rw [lut4bit, getD_range_map _ _ _ _ hb]
    refine ⟨by simp, ?_⟩
    intro i hi
    rw [getD_range_map _ _ _ _ hi]
    norm_num

theorem init_luts_spec_witness :
    (5 : Nat) < 256 ∧ (3 : Nat) < 4 ∧
    (lut2bit.getD 5 []).getD 3 0 =
      decoder_levels2 ((5 >>> (2 * 3)) &&& (2 ^ 2 - 1)) :=
  ⟨by decide, by decide, ((init_luts_spec.2.2.2.2.1 5 (by decide)).2 3 (by decide))⟩

/-! ## Claim C2 -/

/-- Claim C2 counterexample: no decoder for bits-per-sample 1 is registered
in `VDIFPayload._decoders` (the registry has keys 2, 4, 8 only), refuting
the claim that depth 1 has a registered decoder. -/
theorem vdif_no_1bit_decoder : VDIFPayload_getDecoder 1 = none := by
  rfl

/-- Claim C2 (amended): the decoder registry of `VDIFPayload` has exactly
the keys 2, 4 and 8; the lookup that raises `UnsupportedDepthError`
(`KeyError`) fails precisely for every other depth, including 1, even
though `init_luts` builds a 1-bit table. -/
theorem vdif_decoder_registry_keys (n : Nat) :
    (VDIFPayload_getDecoder n).isSome = true ↔ (n = 2 ∨ n = 4 ∨ n = 8) := by
  rw [VDIFPayload_getDecoder, VDIFPayload_decoders]
  by_cases h2 : n = 2
  · subst h2
    simp [List.lookup]
  · by_cases h4 : n = 4
    · subst h4
      simp [List.lookup]
    · by_cases h8 : n = 8
      · subst h8
        simp [List.lookup]
      · have b2 : (n == 2) = false := by simpa using h2
        have b4 : (n == 4) = false := by simpa using h4
        have b8 : (n == 8) = false := by simpa using h8
        simp [List.lookup, b2, b4, b8, h2, h4, h8]

/-! ## Claim C1 -/

theorem encode_2bit_base_lt (v : Int) : encode_2bit_base v < 4 := by
  rw [encode_2bit_base]
  split_ifs <;> decide

theorem pack_extract :
    ∀ c0 < 4, ∀ c1 < 4, ∀ c2 < 4, ∀ c3 < 4,
      ((((((c0 <<< 0) ||| (c1 <<< 2)) ||| (c2 <<< 4)) ||| (c3 <<< 6)) >>>
        (2 * 0)) &&& 3 = c0)
      ∧ ((((((c0 <<< 0) ||| (c1 <<< 2)) ||| (c2 <<< 4)) ||| (c3 <<< 6)) >>>
        (2 * 1)) &&& 3 = c1)
      ∧ ((((((c0 <<< 0) ||| (c1 <<< 2)) ||| (c2 <<< 4)) ||| (c3 <<< 6)) >>>
        (2 * 2)) &&& 3 = c2)
      ∧ ((((((c0 <<< 0) ||| (c1 <<< 2)) ||| (c2 <<< 4)) ||| (c3 <<< 6)) >>>
        (2 * 3)) &&& 3 = c3) := by
  decide

theorem pack_lt_256 :
    ∀ c0 < 4, ∀ c1 < 4, ∀ c2 < 4, ∀ c3 < 4,
      ((((c0 <<< 0) ||| (c1 <<< 2)) ||| (c2 <<< 4)) ||| (c3 <<< 6)) < 256 := by
  decide

theorem decoder_levels2_encode {v : Int}
    (h : v = -3 ∨ v = -1 ∨ v = 1 ∨ v = 3) :
    decoder_levels2 (encode_2bit_base v) = v := by
  rcases h with rfl | rfl | rfl | rfl <;> decide

theorem decode_pack2bit :
    ∀ (n : Nat) (values : List Int), values.length = n →
      values.length % 4 = 0 →
      (∀ v ∈ values, v = -3 ∨ v = -1 ∨ v = 1 ∨ v = 3) →
      decode_2bit (pack2bit values) = values := by
  intro n
  induction n using Nat.strong_induction_on with
  | _ n ih =>
    intro values hn hmod hvals
    rcases values with _ | ⟨v0, _ | ⟨v1, _ | ⟨v2, _ | ⟨v3, rest⟩⟩⟩⟩
    · simp [pack2bit, decode_2bit]
    · simp at hmod
    · simp at hmod
    · simp at hmod
    · rw [pack2bit]
      have hc0 := encode_2bit_base_lt v0
      have hc1 := encode_2bit_base_lt v1
      have hc2 := encode_2bit_base_lt v2
      have hc3 := encode_2bit_base_lt v3
      have hb : ((((encode_2bit_base v0 <<< 0) |||
          (encode_2bit_base v1 <<< 2)) ||| (encode_2bit_base v2 <<< 4)) |||
          (encode_2bit_base v3 <<< 6)) < 256 :=
        pack_lt_256 _ hc0 _ hc1 _ hc2 _ hc3
      have hlut : lut2bit.getD ((((encode_2bit_base v0 <<< 0) |||
          (encode_2bit_base v1 <<< 2)) ||| (encode_2bit_base v2 <<< 4)) |||
          (encode_2bit_base v3 <<< 6)) [] = [v0, v1, v2, v3] := by
        rw [lut2bit, getD_range_map _ _ _ _ hb]
        have hr4 : List.range 4 = [0, 1, 2, 3] := by decide
        rw [hr4]
        simp only [List.map_cons, List.map_nil]
        obtain ⟨he0, he1, he2, he3⟩ := pack_extract _ hc0 _ hc1 _ hc2 _ hc3
        rw [he0, he1, he2, he3]
        rw [decoder_levels2_encode (hvals v0 (by simp)),
          decoder_levels2_encode (hvals v1 (by simp)),
          decoder_levels2_encode (hvals v2 (by simp)),
          decoder_levels2_encode (hvals v3 (by simp))]
      have hrest : decode_2bit (pack2bit rest) = rest := by
        have hlen : rest.length < n := by
          simp at hn
          omega
        exact ih rest.length hlen rest rfl (by simp at hmod ⊢; omega)
          (fun v hv => hvals v (by simp [hv]))
      rw [decode_2bit] at hrest ⊢
      rw [List.flatMap_cons, hlut, hrest]
      rfl

/-- Claim C1: for every array of representable 2-bit levels whose length is
a multiple of 4, `encode_2bit` packs each group of 4 consecutive codes into
one byte (left-shift by `2*i` bits, OR-combined, least-significant group
first, as in `pack2bit`), and `decode_2bit` on the resulting bytes returns
the same levels in the same order. -/
theorem encode2bit_roundtrip (values : List Int)
    (hmod : values.length % 4 = 0)
    (hvals : ∀ v ∈ values, v = -3 ∨ v = -1 ∨ v = 1 ∨ v = 3) :
    encode_2bit values = some (pack2bit values) ∧
    decode_2bit (pack2bit values) = values :=
  ⟨by rw [encode_2bit, if_pos hmod],
   decode_pack2bit values.length values rfl hmod hvals⟩

theorem encode2bit_roundtrip_witness :
    encode_2bit [-3, -1, 1, 3] = some (pack2bit [-3, -1, 1, 3]) ∧
    decode_2bit (pack2bit [-3, -1, 1, 3]) = [-3, -1, 1, 3] :=
  encode2bit_roundtrip [-3, -1, 1, 3] (by decide) (by decide)

/-! ## Claim C8 -/

theorem skip_zero_frames_pos (h : FrameHeader) (l : List FrameHeader)
    (hf : h.frame_nr ≠ 0) : skip_zero_frames h l = some (h, l) := by
  cases l <;> simp [skip_zero_frames, hf]

theorem skip_zero_frames_cons_zero (h h2 : FrameHeader)
    (t : List FrameHeader) (hf : h.frame_nr = 0) :
    skip_zero_frames h (h2 :: t) = skip_zero_frames h2 t := by
  simp [skip_zero_frames, hf]

theorem scan_increasing_zero (h : FrameHeader) (l : List FrameHeader)
    (m : Nat) (hf : h.frame_nr = 0) :
    scan_increasing h l m = some (m, h) := by
  cases l <;> simp [scan_increasing, hf]

theorem scan_increasing_cons_pos (h h2 : FrameHeader)
    (t : List FrameHeader) (m : Nat) (hf : 0 < h.frame_nr) :
    scan_increasing h (h2 :: t) m = scan_increasing h2 t h.frame_nr := by
  simp [scan_increasing, hf]

theorem scan_increasing_run (s0 s1 : Int) :
    ∀ (c k m : Nat), 0 < k →
      scan_increasing ⟨k, s0⟩
        ((List.range c).map (fun i => ⟨i + (k + 1), s0⟩) ++ [⟨0, s1⟩]) m
        = some (k + c, ⟨0, s1⟩) := by
  intro c
  induction c with
  | zero =>
      intro k m hk
      simp only [List.range_zero, List.map_nil, List.nil_append]
      rw [scan_increasing_cons_pos _ _ _ _ hk]
      exact scan_increasing_zero _ _ _ rfl
  | succ c ih =>
      intro k m hk
      rw [List.range_succ_eq_map]
      simp only [List.map_cons, List.map_map, List.cons_append, Nat.zero_add]
      rw [scan_increasing_cons_pos _ _ _ _ hk]
      have hfun : ((fun i => (⟨i + (k + 1), s0⟩ : FrameHeader)) ∘ Nat.succ)
          = fun i => ⟨i + (k + 1 + 1), s0⟩ := by
        funext i
        simp only [Function.comp]
        congr 1
        omega
      rw [hfun]
      have hrec := ih (k + 1) k (by omega)
      rw [hrec]
      congr 2 <;> omega

theorem get_frame_rate_eq (h0 : FrameHeader) (t : List FrameHeader)
    (h1 : FrameHeader) (r : List FrameHeader) (maxf : Nat)
    (hend : FrameHeader) (hz : h0.frame_nr = 0)
    (hskip : skip_zero_frames h0 t = some (h1, r))
    (hscan : scan_increasing h1 r 0 = some (maxf, hend)) :
    get_frame_rate (h0 :: t)
      = some (maxf + 1, decide (hend.seconds ≠ h0.seconds + 1)) := by
  rw [get_frame_rate]
  simp [hz, hskip, hscan]

/-- Claim C8: on a header sequence with frame numbers `0, 1, ..., N-1`
(`N ≥ 2`) within one second `s0` followed by a header with frame number 0 at
seconds `s1`, `get_frame_rate` returns `N`, and it still returns `N` when
`s1 ≠ s0 + 1`, only flagging the warning-level diagnostic instead of
failing. -/
theorem get_frame_rate_spec (N : Nat) (s0 s1 : Int) (hN : 2 ≤ N) :
    get_frame_rate ((List.range N).map (fun i => ⟨i, s0⟩) ++ [⟨0, s1⟩])
      = some (N, decide (s1 ≠ s0 + 1)) := by
  obtain ⟨n, rfl⟩ : ∃ n, N = n + 2 := ⟨N - 2, by omega⟩
  rw [List.range_succ_eq_map, List.range_succ_eq_map]
  simp only [List.map_cons, List.map_map, List.cons_append, Nat.zero_add]
  have hfun : ((fun i => (⟨i, s0⟩ : FrameHeader)) ∘ Nat.succ ∘ Nat.succ)
      = fun i => ⟨i + (1 + 1), s0⟩ := by
    funext i
    simp only [Function.comp]
  rw [hfun]
  have hrun := get_frame_rate_eq ⟨0, s0⟩
    (⟨Nat.succ 0, s0⟩ ::
      ((List.range n).map (fun i => ⟨i + (1 + 1), s0⟩) ++ [⟨0, s1⟩]))
    ⟨Nat.succ 0, s0⟩
    ((List.range n).map (fun i => ⟨i + (1 + 1), s0⟩) ++ [⟨0, s1⟩])
    (1 + n) ⟨0, s1⟩ rfl
    (by
      rw [skip_zero_frames_cons_zero _ _ _ rfl]
      exact skip_zero_frames_pos _ _ Nat.one_ne_zero)
    (scan_increasing_run s0 s1 n 1 0 (by omega))
  rw [hrun]
  have harith : 1 + n + 1 = n + 2 := by omega
  rw [harith]

theorem get_frame_rate_spec_witness :
    2 ≤ 3 ∧
    get_frame_rate ((List.range 3).map (fun i => ⟨i, (5 : Int)⟩) ++ [⟨0, 7⟩])
      = some (3, decide ((7 : Int) ≠ 5 + 1)) :=
  ⟨by decide, get_frame_rate_spec 3 5 7 (by decide)⟩

/-! ## Claims C9 and C10 -/

/-- Claim C9 counterexample: `fromdata` called without a header but with the
explicit legacy tag `edv = 0xab` and complex data succeeds and produces a
payload, because the complex-data guard of `VDIFPayload.__init__` only runs
when a header is supplied; this refutes the claim that every such encode
fails. -/
theorem vdif_fromdata_mark5b_complex_succeeds :
    (VDIFPayload_fromdata ⟨4, 2, true, List.replicate 16 1⟩ none 2
      (some 0xab)).isOk = true := by
  rfl

theorem vdif_payload_init_mark5b_complex (words : List Nat)
    (h : VDIFHeaderM) (nc bp : Nat) (cd : Bool) (he : h.edv = 0xab)
    (hc : h.complex_data = true) :
    VDIFPayload_init words (some h) nc bp cd
      = Except.error "VDIF/Mark5B payload cannot be complex." := by
  rw [VDIFPayload_init]
  simp [he, hc]

/-- Claim C9 (amended): when a header with the legacy tag `edv = 0xab` is
supplied, complex data makes both payload construction and `fromdata` fail
(no payload is produced); `fromdata` without a header does not perform this
check even when `edv = 0xab` is passed explicitly. -/
theorem vdif_mark5b_complex_guard :
    (∀ (words : List Nat) (h : VDIFHeaderM) (nc bp : Nat) (cd : Bool),
      h.edv = 0xab → h.complex_data = true →
      VDIFPayload_init words (some h) nc bp cd
        = Except.error "VDIF/Mark5B payload cannot be complex.")
    ∧ (∀ (d : DataArray) (h : VDIFHeaderM) (bp : Nat) (ed : Option Nat),
      h.edv = 0xab → d.kindComplex = true →
      (VDIFPayload_fromdata d (some h) bp ed).isOk = false) := by
  refine ⟨vdif_payload_init_mark5b_complex, ?_⟩
  intro d h bp ed he hc
  rw [VDIFPayload_fromdata]
  by_cases hnc : h.nchan ≠ d.nchan
  · rw [if_pos hnc]
    rfl
  · rw [if_neg hnc]
    by_cases hcc : h.complex_data ≠ d.kindComplex
    · rw [if_pos hcc]
      rfl
    · rw [if_neg hcc]
      have hcd : h.complex_data = true := by
        push_neg at hcc
        rw [hcc, hc]
      rw [VDIFPayload_encodeAndBuild]
      cases henc : (if some h.edv = some 0xab then
          Mark5BPayload_encoders.lookup h.bps
        else VDIFPayload_encoders.lookup h.bps) with
      | none => rfl
      | some enc =>
          simp only []
          cases hbytes : enc d.flat with
          | none => rfl
          | some bytes =>
              simp only []
              cases hwords : toWords bytes with
              | none => rfl
              | some words =>
                  simp only []
                  rw [vdif_payload_init_mark5b_complex words h d.nchan h.bps
                    d.kindComplex he hcd]
                  rfl

theorem vdif_mark5b_complex_guard_witness :
    VDIFPayload_init [0] (some ⟨2, 2, true, 40, 0xab⟩) 2 2 true
      = Except.error "VDIF/Mark5B payload cannot be complex." ∧
    (VDIFPayload_fromdata ⟨4, 2, true, List.replicate 16 1⟩
      (some ⟨2, 2, true, 40, 0xab⟩) 2 none).isOk = false :=
  ⟨vdif_mark5b_complex_guard.1 [0] ⟨2, 2, true, 40, 0xab⟩ 2 2 true rfl rfl,
   vdif_mark5b_complex_guard.2 ⟨4, 2, true, List.replicate 16 1⟩
     ⟨2, 2, true, 40, 0xab⟩ 2 none rfl rfl⟩

/-- Claim C10: a `VDIFPayload` built from raw words with no header and no
keywords uses the defaults `nchan = 1`, `bps = 2`, `complex_data = False`
(so the payload is 2-bit single-channel real), and `fromdata` without a
header likewise defaults to `bps = 2`. -/
theorem vdif_payload_defaults :
    (∀ words : List Nat, VDIFPayload_init words none
        = Except.ok ⟨words, 2, [1], false, 1, false⟩)
    ∧ (∀ (d : DataArray) (p : PayloadM),
        VDIFPayload_fromdata d none = Except.ok p →
        p.bps = 2 ∧ p.complex_data = d.kindComplex) := by
  constructor
  · intro words
    rfl
  · intro d p hp
    have hp3 : (match encode_2bit d.flat with
      | none => (Except.error "cannot reshape data for encoding" :
          Except String PayloadM)
      | some bytes =>
        match toWords bytes with
        | none => Except.error "cannot view encoded bytes as words"
        | some words =>
            VDIFPayload_init words none d.nchan 2 d.kindComplex)
        = Except.ok p := hp
    cases hbytes : encode_2bit d.flat with
    | none =>
        rw [hbytes] at hp3
        simp at hp3
    | some bytes =>
        rw [hbytes] at hp3
        simp only [] at hp3
        cases hwords : toWords bytes with
        | none =>
            rw [hwords] at hp3
            simp at hp3
        | some words =>
            rw [hwords] at hp3
            simp only [] at hp3
            rw [VDIFPayload_init] at hp3
            simp only [Except.ok.injEq] at hp3
            rw [← hp3]
            exact ⟨rfl, rfl⟩

theorem vdif_payload_defaults_witness :
    VDIFPayload_init [0] none = Except.ok ⟨[0], 2, [1], false, 1, false⟩ ∧
    ((⟨[2863311530], 2, [1], false, 1, false⟩ : PayloadM).bps = 2 ∧
     (⟨[2863311530], 2, [1], false, 1, false⟩ : PayloadM).complex_data
       = (⟨16, 1, false, List.replicate 16 1⟩ : DataArray).kindComplex) :=
  ⟨vdif_payload_defaults.1 [0],
   vdif_payload_defaults.2 ⟨16, 1, false, List.replicate 16 1⟩
     ⟨[2863311530], 2, [1], false, 1, false⟩ (by rfl)⟩

/-! ## CRC lemmas -/

theorem xor_xor_cancel (a b q : Nat) : (a ^^^ q) ^^^ (b ^^^ q) = a ^^^ b := by
  rw [Nat.xor_comm b q, ← Nat.xor_assoc, Nat.xor_assoc a q q, Nat.xor_self,
    Nat.xor_zero]

theorem xor_eq_left {a b : Nat} (h : a ^^^ b = a) : b = 0 := by
  have h2 := congrArg (fun x => a ^^^ x) h
  simp only at h2
  rwa [← Nat.xor_assoc, Nat.xor_self, Nat.zero_xor] at h2

theorem pol_bin_one : pol_bin 1 = [true] := rfl

theorem pol_bin_go_succ_ne_nil (f n : Nat) (hn : 0 < n) :
    pol_bin_go (f + 1) n ≠ [] := by
  rw [pol_bin_go]
  simp [Nat.pos_iff_ne_zero.mp hn]

theorem pol_bin_length_two_le {p : Nat} (hp : 2 ≤ p) :
    2 ≤ (pol_bin p).length := by
  obtain ⟨f, rfl⟩ : ∃ f, p = f + 2 := ⟨p - 2, by omega⟩
  rw [pol_bin, if_neg (by omega), pol_bin_go, if_neg (by omega),
    List.length_append]
  have h1 : (f + 2) / 2 = f / 2 + 1 := by omega
  have h2 : pol_bin_go (f + 1) ((f + 2) / 2) ≠ [] := by
    rw [h1]
    cases hf : f + 1 with
    | zero => omega
    | succ f2 =>
        have : 0 < f / 2 + 1 := by omega
        exact pol_bin_go_succ_ne_nil f2 _ this
  have := List.length_pos.mpr h2
  simp only [List.length_cons, List.length_nil]
  omega

theorem applyAt_length (s : List Nat) (i : Nat) (patch : List Nat) :
    (applyAt s i patch).length = s.length := by
  simp [applyAt]

theorem applyAt_getD (s : List Nat) (i : Nat) (patch : List Nat) (k : Nat) :
    (applyAt s i patch).getD k 0 =
      if k < s.length then
        (if i ≤ k ∧ k < i + patch.length then
          s.getD k 0 ^^^ patch.getD (k - i) 0
        else s.getD k 0)
      else 0 := by
  rw [applyAt]
  by_cases hk : k < s.length
  · rw [getD_range_map _ _ _ _ hk, if_pos hk]
  · rw [if_neg hk]
    refine List.getD_eq_default _ _ ?_
    simp only [List.length_map, List.length_range]
    omega

theorem crcStep_length (mask : List Nat) (s : List Nat) (i : Nat) :
    (crcStep mask s i).length = s.length := by
  rw [crcStep, applyAt_length]

theorem crcLoop_length (mask : List Nat) :
    ∀ (steps i : Nat) (s : List Nat),
      (crcLoop mask s i steps).length = s.length := by
  intro steps
  induction steps with
  | zero => intro i s; rfl
  | succ st ih =>
      intro i s
      rw [crcLoop, ih, crcStep_length]

theorem crcStep_getD_congr (mask : List Nat) (s t : List Nat) (i : Nat)
    (hlen : s.length = t.length) (hsi : s.getD i 0 = t.getD i 0) :
    ∀ j, (crcStep mask s i).getD j 0 ^^^ (crcStep mask t i).getD j 0
      = s.getD j 0 ^^^ t.getD j 0 := by
  intro j
  rw [crcStep, crcStep, ← hsi]
  rw [applyAt_getD, applyAt_getD]
  by_cases hj : j < s.length
  · have hj2 : j < t.length := by omega
    rw [if_pos hj, if_pos hj2]
    by_cases hw : i ≤ j ∧
        j < i + (mask.map (fun m => m &&& s.getD i 0)).length
    · rw [if_pos hw, if_pos hw, xor_xor_cancel]
    · rw [if_neg hw, if_neg hw]
  · have hj2 : ¬ j < t.length := by omega
    rw [if_neg hj, if_neg hj2]
    rw [List.getD_eq_default _ _ (by omega), List.getD_eq_default _ _ (by omega)]

theorem crcLoop_congr (mask : List Nat) :
    ∀ (steps i : Nat) (s t : List Nat), s.length = t.length →
      (∀ k, k < i + steps → s.getD k 0 = t.getD k 0) →
      ∀ k, (crcLoop mask s i steps).getD k 0 ^^^
          (crcLoop mask t i steps).getD k 0
        = s.getD k 0 ^^^ t.getD k 0 := by
  intro steps
  induction steps with
  | zero => intro i s t hlen hpre k; rfl
  | succ st ih =>
      intro i s t hlen hpre k
      rw [crcLoop, crcLoop]
      have hsi : s.getD i 0 = t.getD i 0 := hpre i (by omega)
      have hstep := crcStep_getD_congr mask s t i hlen hsi
      have hlen2 : (crcStep mask s i).length = (crcStep mask t i).length := by
        rw [crcStep_length, crcStep_length, hlen]
      have hpre2 : ∀ k2, k2 < (i + 1) + st →
          (crcStep mask s i).getD k2 0 = (crcStep mask t i).getD k2 0 := by
        intro k2 hk2
        have hd := hstep k2
        rw [hpre k2 (by omega), Nat.xor_self] at hd
        exact Nat.xor_eq_zero.mp hd
      rw [ih (i + 1) _ _ hlen2 hpre2 k, hstep k]

theorem crcStep_single_getD (w : Nat) (s : List Nat) (i : Nat)
    (hs : ∀ x ∈ s, x < 2 ^ w) (j : Nat) :
    (crcStep [2 ^ w - 1] s i).getD j 0
      = if j = i ∧ j < s.length then 0 else s.getD j 0 := by
  rw [crcStep, applyAt_getD]
  by_cases hj : j < s.length
  · rw [if_pos hj]
    simp only [List.map_cons, List.map_nil, List.length_cons, List.length_nil]
    by_cases hw : i ≤ j ∧ j < i + (0 + 1)
    · have hji : j = i := by omega
      subst hji
      rw [if_pos hw, if_pos ⟨rfl, hj⟩]
      simp only [Nat.sub_self, List.getD_cons_zero]
      have hjs : s.getD j 0 < 2 ^ w := hs _ (getD_mem hj)
      rw [Nat.and_comm, Nat.and_pow_two_sub_one_eq_mod,
        Nat.mod_eq_of_lt hjs, Nat.xor_self]
    · rw [if_neg hw, if_neg (by omega)]
  · rw [if_neg hj, if_neg (by omega),
      List.getD_eq_default _ _ (by omega)]

theorem crcStep_single_bound (w : Nat) (s : List Nat) (i : Nat)
    (hs : ∀ x ∈ s, x < 2 ^ w) :
    ∀ x ∈ crcStep [2 ^ w - 1] s i, x < 2 ^ w := by
  intro x hx
  rw [crcStep, applyAt] at hx
  obtain ⟨k, hk, rfl⟩ := List.mem_map.mp hx
  have hkl : k < s.length := List.mem_range.mp hk
  have hsk : s.getD k 0 < 2 ^ w := hs _ (getD_mem hkl)
  by_cases hw : i ≤ k ∧
      k < i + (([2 ^ w - 1]).map (fun m => m &&& s.getD i 0)).length
  · rw [if_pos hw]
    have hpatch : (([2 ^ w - 1]).map
        (fun m => m &&& s.getD i 0)).getD (k - i) 0 < 2 ^ w := by
      simp only [List.map_cons, List.map_nil, List.length_cons,
        List.length_nil] at hw ⊢
      have hki : k - i = 0 := by omega
      rw [hki, List.getD_cons_zero]
      calc (2 ^ w - 1) &&& s.getD i 0 ≤ 2 ^ w - 1 := Nat.and_le_left
        _ < 2 ^ w := by
            have := Nat.pos_pow_of_pos w (show 0 < 2 by decide)
            omega
    exact Nat.xor_lt_two_pow hsk hpatch
  · rw [if_neg hw]
    exact hsk

theorem crcLoop_single (w : Nat) :
    ∀ (steps i : Nat) (s : List Nat), (∀ x ∈ s, x < 2 ^ w) →
      ∀ k, (crcLoop [2 ^ w - 1] s i steps).getD k 0
        = if i ≤ k ∧ k < i + steps ∧ k < s.length then 0
          else s.getD k 0 := by
  intro steps
  induction steps with
  | zero =>
      intro i s hs k
      rw [crcLoop, if_neg (by omega)]
  | succ st ih =>
      intro i s hs k
      rw [crcLoop, ih (i + 1) _ (crcStep_single_bound w s i hs) k]
      have hlen2 : (crcStep [2 ^ w - 1] s i).length = s.length :=
        crcStep_length _ _ _
      rw [hlen2, crcStep_single_getD w s i hs k]
      by_cases h1 : i + 1 ≤ k ∧ k < i + 1 + st ∧ k < s.length
      · rw [if_pos h1, if_pos (by omega)]
      · rw [if_neg h1]
        by_cases h2 : k = i ∧ k < s.length
        · rw [if_pos h2, if_pos (by omega)]
        · rw [if_neg h2, if_neg (by omega)]

theorem getD_replicate_zero (n j : Nat) :
    (List.replicate n (0 : Nat)).getD j 0 = 0 := by
  rw [List.getD_eq_getElem?_getD, List.getElem?_replicate]
  split_ifs <;> rfl

theorem CRC_crc_eq_pos (p w : Nat) (s : List Nat) (hd : CRC_len p ≠ 0) :
    CRC_crc p w s =
      (crcLoop (polMask p w) s 0 (s.length - CRC_len p)).drop
        ((crcLoop (polMask p w) s 0 (s.length - CRC_len p)).length
          - CRC_len p) := by
  simp only [CRC_crc]
  rw [if_neg hd]

theorem CRC_crc_eq_zero (p w : Nat) (s : List Nat) (hd : CRC_len p = 0) :
    CRC_crc p w s = crcLoop (polMask p w) s 0 s.length := by
  simp only [CRC_crc]
  rw [hd, if_pos rfl, Nat.sub_zero]

theorem CRC_check_iff (p w : Nat) (s : List Nat) :
    CRC_check p w s = true ↔ ∀ x ∈ CRC_crc p w s, x = 0 := by
  rw [CRC_check, List.all_eq_true]
  constructor
  · intro h x hx
    simpa using h x hx
  · intro h x hx
    simpa using h x hx

theorem mask_one : ∀ w : Nat, polMask 1 w = [2 ^ w - 1] := by
  intro w
  rw [polMask, pol_bin_one]
  simp

theorem CRC_len_one : CRC_len 1 = 0 := rfl

theorem crc_self_consistency_deg_zero (w : Nat) (stream : List Nat)
    (hb : ∀ x ∈ stream, x < 2 ^ w) :
    CRC_check 1 w (stream ++ CRC_call 1 w stream) = true := by
  have hr0 : ∀ x ∈ CRC_call 1 w stream, x = 0 := by
    intro x hx
    rw [CRC_call, CRC_len_one, List.replicate_zero, List.append_nil,
      CRC_crc_eq_zero 1 w stream CRC_len_one, mask_one] at hx
    obtain ⟨j, hj, hxe⟩ := List.mem_iff_getElem.mp hx
    have hjlen : j < stream.length := by
      have := crcLoop_length [2 ^ w - 1] stream.length 0 stream
      omega
    have hg := crcLoop_single w stream.length 0 stream hb j
    rw [if_pos ⟨by omega, by omega, hjlen⟩] at hg
    rw [← hxe, ← List.getD_eq_getElem _ 0 hj]
    exact hg
  have hball : ∀ x ∈ stream ++ CRC_call 1 w stream, x < 2 ^ w := by
    intro x hx
    rcases List.mem_append.mp hx with h | h
    · exact hb x h
    · rw [hr0 x h]
      exact Nat.two_pow_pos w
  rw [CRC_check_iff, CRC_crc_eq_zero 1 w _ CRC_len_one, mask_one]
  intro x hx
  obtain ⟨j, hj, hxe⟩ := List.mem_iff_getElem.mp hx
  set c := stream ++ CRC_call 1 w stream with hc
  have hjlen : j < c.length := by
    have := crcLoop_length [2 ^ w - 1] c.length 0 c
    omega
  have hg := crcLoop_single w c.length 0 c hball j
  rw [if_pos ⟨by omega, by omega, hjlen⟩] at hg
  rw [← hxe, ← List.getD_eq_getElem _ 0 hj]
  exact hg

theorem crc_self_consistency_deg_pos (p w : Nat) (stream : List Nat)
    (hd : 1 ≤ CRC_len p) :
    CRC_check p w (stream ++ CRC_call p w stream) = true := by
  set d := CRC_len p with hdd
  set mask := polMask p w with hmm
  set n := stream.length with hnn
  set ext := stream ++ List.replicate d 0 with hext
  have h_ext_len : ext.length = n + d := by
    rw [hext, List.length_append, List.length_replicate]
  set L1 := crcLoop mask ext 0 n with hL1
  have hL1len : L1.length = n + d := by
    rw [hL1, crcLoop_length, h_ext_len]
  have hr : CRC_call p w stream = L1.drop n := by
    rw [CRC_call]
    rw [CRC_crc_eq_pos p w ext (by omega)]
    have hsteps : ext.length - CRC_len p = n := by
      rw [h_ext_len]
      omega
    rw [hsteps, ← hmm, ← hL1, hL1len]
    congr 1
    omega
  have hrlen : (CRC_call p w stream).length = d := by
    rw [hr, List.length_drop, hL1len]
    omega
  set concat := stream ++ CRC_call p w stream with hconcat
  have hclen : concat.length = n + d := by
    rw [hconcat, List.length_append, hrlen]
  set L2 := crcLoop mask concat 0 n with hL2
  have hL2len : L2.length = n + d := by
    rw [hL2, crcLoop_length, hclen]
  have hcrc2 : CRC_crc p w concat = L2.drop n := by
    rw [CRC_crc_eq_pos p w concat (by omega)]
    have hsteps2 : concat.length - CRC_len p = n := by
      rw [hclen]
      omega
    rw [hsteps2, ← hmm, ← hL2, hL2len]
    congr 1
    omega
  have hpre : ∀ k, k < 0 + n → ext.getD k 0 = concat.getD k 0 := by
    intro k hk
    rw [hext, hconcat, List.getD_append _ _ _ k (by omega),
      List.getD_append _ _ _ k (by omega)]
  have hcong := crcLoop_congr mask n 0 ext concat (by omega) hpre
  have htail : ∀ j, L2.getD (n + j) 0 = 0 := by
    intro j
    have hdiff := hcong (n + j)
    have hext_tail : ext.getD (n + j) 0 = 0 := by
      rw [hext, List.getD_append_right _ _ _ _ (by omega)]
      have : n + j - stream.length = j := by omega
      rw [this, getD_replicate_zero]
    have hconcat_tail : concat.getD (n + j) 0 = L1.getD (n + j) 0 := by
      rw [hconcat, List.getD_append_right _ _ _ _ (by omega)]
      have : n + j - stream.length = j := by omega
      rw [this, hr, getD_drop]
    rw [hext_tail, hconcat_tail, Nat.zero_xor] at hdiff
    exact xor_eq_left hdiff
  rw [CRC_check_iff, hcrc2]
  intro x hx
  obtain ⟨j, hj, hxe⟩ := List.mem_iff_getElem.mp hx
  rw [← hxe, ← List.getD_eq_getElem _ 0 hj, getD_drop]
  exact htail j

/-! ## Claim C4 -/

/-- Claim C4: for every well-formed nonzero polynomial and every stream of
length at least the polynomial degree, appending `compute(stream)` to the
stream and running `check` on the concatenation returns true, and `check`
succeeds exactly when the computed remainder is entirely zero for every
track. -/
theorem crc_check_roundtrip (p w : Nat) (stream : List Nat)
    (hp : 1 ≤ p) (hb : ∀ x ∈ stream, x < 2 ^ w)
    (hlen : CRC_len p ≤ stream.length) :
    CRC_check p w (stream ++ CRC_call p w stream) = true
    ∧ (∀ s : List Nat, CRC_check p w s = true ↔
        ∀ x ∈ CRC_crc p w s, x = 0) := by
  refine ⟨?_, fun s => CRC_check_iff p w s⟩
  by_cases hp1 : p = 1
  · subst hp1
    exact crc_self_consistency_deg_zero w stream hb
  · have hp2 : 2 ≤ p := by omega
    have hd : 1 ≤ CRC_len p := by
      have := pol_bin_length_two_le hp2
      rw [CRC_len]
      omega
    exact crc_self_consistency_deg_pos p w stream hd

theorem crc_check_roundtrip_witness :
    (1 ≤ 0x180f ∧ (∀ x ∈ [1, 0, 1, 1, 0, 0, 1, 0, 1, 1, 1, 0], x < 2 ^ 1) ∧
      CRC_len 0x180f ≤ ([1, 0, 1, 1, 0, 0, 1, 0, 1, 1, 1, 0] : List Nat).length)
    ∧ CRC_check 0x180f 1
        ([1, 0, 1, 1, 0, 0, 1, 0, 1, 1, 1, 0] ++
          CRC_call 0x180f 1 [1, 0, 1, 1, 0, 0, 1, 0, 1, 1, 1, 0]) = true :=
  ⟨⟨by decide, by decide, by decide⟩,
   (crc_check_roundtrip 0x180f 1 [1, 0, 1, 1, 0, 0, 1, 0, 1, 1, 1, 0]
     (by decide) (by decide) (by decide)).1⟩

/-! ## Claim C3 -/

/-- Claim C3 counterexample: for the length-1 polynomial `1` (degree
`len - 1 = 0`), `compute` on the stream `[1]` returns `[0]`, a remainder
with 1 element rather than `degree = 0` elements, because the Python slice
`stream[-0:]` is the whole stream; this refutes the claim for every
polynomial. -/
theorem crc_call_degree_zero_counterexample :
    CRC_len 1 = 0 ∧ CRC_call 1 1 [1] = [0] ∧
    (CRC_call 1 1 [1]).length ≠ CRC_len 1 := by
  refine ⟨rfl, ?_, ?_⟩ <;> decide

/-- Claim C3 (amended): for every polynomial with coefficient count at least
2 (nonzero degree), `compute` appends `degree = len - 1` zero elements and
runs the `_crc` loop, each loop iteration XORs the polynomial coefficients
into the window `stream[i .. i+degree]` exactly when the bit of the
bit/word at position `i` is set in the given track, and the returned CRC
has exactly `degree` elements. -/
theorem crc_compute_structure (p w : Nat) (stream : List Nat)
    (hp : 2 ≤ p) :
    CRC_call p w stream
      = CRC_crc p w (stream ++ List.replicate (CRC_len p) 0)
    ∧ (CRC_call p w stream).length = CRC_len p
    ∧ (∀ (s : List Nat) (i k t : Nat),
        i + (pol_bin p).length ≤ s.length →
        ((crcStep (polMask p w) s i).getD k 0).testBit t
          = (((s.getD k 0).testBit t).xor
              (decide (i ≤ k) && decide (k < i + (pol_bin p).length) &&
               (s.getD i 0).testBit t && decide (t < w) &&
               (pol_bin p).getD (k - i) false))) := by
  have hd1 : 1 ≤ CRC_len p := by
    have := pol_bin_length_two_le hp
    rw [CRC_len]
    omega
  refine ⟨rfl, ?_, ?_⟩
  · have h_ext_len :
        (stream ++ List.replicate (CRC_len p) 0).length
          = stream.length + CRC_len p := by
      simp
    rw [CRC_call, CRC_crc_eq_pos p w _ (by omega), List.length_drop,
      crcLoop_length]
    omega
  · intro s i k t hwfit
    rw [crcStep, applyAt_getD]
    have hplen : ((polMask p w).map (fun m => m &&& s.getD i 0)).length
        = (pol_bin p).length := by
      simp [polMask]
    by_cases hk : k < s.length
    · rw [if_pos hk]
      by_cases hwin : i ≤ k ∧
          k < i + ((polMask p w).map (fun m => m &&& s.getD i 0)).length
      · rw [if_pos hwin]
        obtain ⟨hik, hkp⟩ := hwin
        rw [hplen] at hkp
        have hki : k - i < (polMask p w).length := by
          simp only [polMask, List.length_map]
          omega
        rw [getD_map_lt _ _ _ hki _ 0, polMask]
        have hki2 : k - i < (pol_bin p).length := by omega
        rw [getD_map_lt _ _ _ (by simpa using hki2) _ false]
        rw [Nat.testBit_xor, Nat.testBit_and]
        have h1 : decide (i ≤ k) = true := by simp [hik]
        have h2 : decide (k < i + (pol_bin p).length) = true := by
          simp [hkp]
        rw [h1, h2]
        cases hc : (pol_bin p).getD (k - i) false
        · simp [Nat.zero_testBit]
        · simp only [ite_true, reduceIte, Nat.testBit_two_pow_sub_one]
          cases hsb : (s.getD i 0).testBit t <;>
            cases hdw : decide (t < w) <;>
            simp
      · rw [if_neg hwin]
        rw [hplen] at hwin
        have hfalse : (decide (i ≤ k) &&
            decide (k < i + (pol_bin p).length) &&
            (s.getD i 0).testBit t && decide (t < w) &&
            (pol_bin p).getD (k - i) false) = false := by
          by_cases hik : i ≤ k
          · have hk2 : ¬ k < i + (pol_bin p).length :=
              fun h => hwin ⟨hik, h⟩
            simp [hk2]
          · simp [hik]
        rw [hfalse, Bool.xor_false]
    · rw [if_neg hk]
      have hs0 : s.getD k 0 = 0 := List.getD_eq_default _ _ (by omega)
      have hk2 : ¬ k < i + (pol_bin p).length := by omega
      rw [hs0]
      have hdec : decide (k < i + (pol_bin p).length) = false := by
        simp [hk2]
      simp [hdec, Nat.zero_testBit]

theorem crc_compute_structure_witness :
    2 ≤ 5 ∧
    (CRC_call 5 1 [1, 0, 1, 1]
        = CRC_crc 5 1 ([1, 0, 1, 1] ++ List.replicate (CRC_len 5) 0)
      ∧ (CRC_call 5 1 [1, 0, 1, 1]).length = CRC_len 5
      ∧ (∀ (s : List Nat) (i k t : Nat),
          i + (pol_bin 5).length ≤ s.length →
          ((crcStep (polMask 5 1) s i).getD k 0).testBit t
            = (((s.getD k 0).testBit t).xor
                (decide (i ≤ k) && decide (k < i + (pol_bin 5).length) &&
                 (s.getD i 0).testBit t && decide (t < 1) &&
                 (pol_bin 5).getD (k - i) false)))) :=
  ⟨by decide, crc_compute_structure 5 1 [1, 0, 1, 1] (by decide)⟩
